import Mathlib

/-!
# Vault: Nomad access configuration and the Cassandra storage adapter

Part 1 embeds `builtin/logical/nomad/path_config_access.go`: the handlers
`configExistenceCheck`, `readConfigAccess`, `pathConfigAccessRead`,
`pathConfigAccessWrite` and `pathConfigAccessDelete`, over an explicit
storage state.

Part 2 models the bucket indexer and the storage adapter exercised by
`physical/cassandra/cassandra_test.go`.
-/

namespace Nomad

/-! ## Data model -/

/-- Errors are carried as their message. -/
abbrev Error := String

/-- Storage key of the access configuration (`const configAccessKey`). -/
def configAccessKey : String := "config/access"

/-- The struct `accessConfig`, fields in declaration order. -/
structure accessConfig where
  Address : String
  Token : String
  MaxTokenNameLength : Int
  CACert : String
  ClientCert : String
  ClientKey : String
deriving DecidableEq

/-- Zero value `&accessConfig{}`. -/
def accessConfig.zero : accessConfig := ⟨"", "", 0, "", "", ""⟩

/-- Scalar JSON values, as far as the six fields of `accessConfig` need them. -/
inductive JSONValue where
  | null
  | bool (b : Bool)
  | number (n : Int)
  | string (s : String)
deriving DecidableEq

/-- Payload of a storage entry, read up to JSON parsing: a JSON object given by
its members in textual order, or bytes that are not a JSON object. -/
inductive EntryValue where
  | object (members : List (String × JSONValue))
  | malformed
deriving DecidableEq

/-- The type `logical.StorageEntry`. -/
structure StorageEntry where
  Key : String
  Value : EntryValue
deriving DecidableEq

/-- Values of `map[string]interface{}` in a response and of parsed request fields. -/
inductive Value where
  | string (s : String)
  | int (n : Int)
deriving DecidableEq

/-- The type `logical.Response`, reduced to its `Data` map; the keys are listed in
source order. -/
structure Response where
  Data : List (String × Value)
deriving DecidableEq

/-- Modelled from the spec: `logical.Storage` (sdk/logical, not under src/), the
"generic storage interface" over "a key-value store". The state is the stored
entries; every method of the interface can fail with an error of its own. -/
structure Storage where
  entries : String → Option EntryValue
  getErr : Option Error
  putErr : Option Error
  deleteErr : Option Error

/-- Method `Storage.Get`: the entry under `key`, `none` for a nil entry. -/
def Storage.Get (s : Storage) (key : String) : Except Error (Option StorageEntry) :=
  match s.getErr with
  | some e => .error e
  | none => .ok ((s.entries key).map fun v => ⟨key, v⟩)

/-- Method `Storage.Put`: stores the entry under its key. -/
def Storage.Put (s : Storage) (entry : StorageEntry) : Except Error Storage :=
  match s.putErr with
  | some e => .error e
  | none => .ok { s with entries := fun k => if k = entry.Key then some entry.Value else s.entries k }

/-- Method `Storage.Delete`: removes the entry under `key`. -/
def Storage.Delete (s : Storage) (key : String) : Except Error Storage :=
  match s.deleteErr with
  | some e => .error e
  | none => .ok { s with entries := fun k => if k = key then none else s.entries k }

/-- Modelled from the spec: `framework.FieldData` (sdk/framework, not under src/),
seen through the two accessors the handlers call: the request data parsed against
the schema of `pathConfigAccess`, string fields and integer fields apart. A field
the request does not supply is `none`. -/
structure FieldData where
  strings : String → Option String
  ints : String → Option Int

/-- Accessor `data.GetOk(k)` on a `TypeString` field: the value and `ok`. -/
def FieldData.GetOk (data : FieldData) (k : String) : Option String :=
  data.strings k

/-- Accessor `data.Get(k)` on a `TypeInt` field without `Default`: the supplied
value, or the zero value of the type. -/
def FieldData.Get (data : FieldData) (k : String) : Int :=
  (data.ints k).getD 0

/-! ## JSON encoding of the configuration -/

/-- Decoding of one object member into the struct (`encoding/json`): a member
whose name is a field tag sets that field, `null` leaves it, a value of the wrong
JSON type is an error, an unknown name is skipped. -/
def decodeMember (conf : accessConfig) (name : String) (v : JSONValue) :
    Except Error accessConfig :=
  let str (set : String → accessConfig) : Except Error accessConfig :=
    match v with
    | .string s => .ok (set s)
    | .null => .ok conf
    | _ => .error "json: cannot unmarshal into Go struct field of type string"
  if name = "address" then str fun s => { conf with Address := s }
  else if name = "token" then str fun s => { conf with Token := s }
  else if name = "max_token_name_length" then
    match v with
    | .number n => .ok { conf with MaxTokenNameLength := n }
    | .null => .ok conf
    | _ => .error "json: cannot unmarshal into Go struct field of type int"
  else if name = "ca_cert" then str fun s => { conf with CACert := s }
  else if name = "client_cert" then str fun s => { conf with ClientCert := s }
  else if name = "client_key" then str fun s => { conf with ClientKey := s }
  else .ok conf

/-- Decoding of the members of an object, in textual order. -/
def decodeMembers : List (String × JSONValue) → accessConfig → Except Error accessConfig
  | [], conf => .ok conf
  | (name, v) :: rest, conf =>
    match decodeMember conf name v with
    | .error e => .error e
    | .ok conf' => decodeMembers rest conf'

/-- Method `entry.DecodeJSON(conf)`. -/
def StorageEntry.DecodeJSON (entry : StorageEntry) (conf : accessConfig) :
    Except Error accessConfig :=
  match entry.Value with
  | .malformed => .error "invalid character looking for beginning of value"
  | .object members => decodeMembers members conf

/-- The JSON object `json.Marshal` produces for the struct: one member per
`json` tag, fields in declaration order. Strings are sequences of Unicode
characters, which marshalling keeps as they are. -/
def marshal (conf : accessConfig) : EntryValue :=
  .object
    [("address", .string conf.Address),
     ("token", .string conf.Token),
     ("max_token_name_length", .number conf.MaxTokenNameLength),
     ("ca_cert", .string conf.CACert),
     ("client_cert", .string conf.ClientCert),
     ("client_key", .string conf.ClientKey)]

/-- Function `logical.StorageEntryJSON(k, conf)`; marshalling this struct cannot
fail. -/
def StorageEntryJSON (k : String) (conf : accessConfig) : Except Error StorageEntry :=
  .ok ⟨k, marshal conf⟩

/-! ## The handlers -/

/-- Function `readConfigAccess`: `none` when no entry is stored. -/
def readConfigAccess (storage : Storage) : Except Error (Option accessConfig) :=
  match storage.Get configAccessKey with
  | .error err => .error err
  | .ok none => .ok none
  | .ok (some entry) =>
    match entry.DecodeJSON accessConfig.zero with
    | .error err => .error ("error reading nomad access configuration: " ++ err)
    | .ok conf => .ok (some conf)

/-- Function `configExistenceCheck`; an error stands for the pair `(false, err)`. -/
def configExistenceCheck (storage : Storage) : Except Error Bool :=
  match readConfigAccess storage with
  | .error err => .error err
  | .ok entry => .ok entry.isSome

/-- Function `pathConfigAccessRead`; `none` is the nil response. -/
def pathConfigAccessRead (storage : Storage) : Except Error (Option Response) :=
  match readConfigAccess storage with
  | .error err => .error err
  | .ok none => .ok none
  | .ok (some conf) =>
    .ok (some ⟨[("address", .string conf.Address),
                ("max_token_name_length", .int conf.MaxTokenNameLength)]⟩)

/-- The five `GetOk` updates and the `Get` of `pathConfigAccessWrite`, applied
to the configuration read from storage (or the zero value). -/
def applyFields (conf : accessConfig) (data : FieldData) : accessConfig :=
  let conf := match data.GetOk "address" with
    | some address => { conf with Address := address }
    | none => conf
  let conf := match data.GetOk "token" with
    | some token => { conf with Token := token }
    | none => conf
  let conf := match data.GetOk "ca_cert" with
    | some caCert => { conf with CACert := caCert }
    | none => conf
  let conf := match data.GetOk "client_cert" with
    | some clientCert => { conf with ClientCert := clientCert }
    | none => conf
  let conf := match data.GetOk "client_key" with
    | some clientKey => { conf with ClientKey := clientKey }
    | none => conf
  { conf with MaxTokenNameLength := data.Get "max_token_name_length" }

/-- Function `pathConfigAccessWrite`: the response (always nil) and the storage
after the call. -/
def pathConfigAccessWrite (storage : Storage) (data : FieldData) :
    Except Error (Option Response × Storage) :=
  match readConfigAccess storage with
  | .error err => .error err
  | .ok conf? =>
    let conf := match conf? with
      | some conf => conf
      | none => accessConfig.zero
    let conf := applyFields conf data
    match StorageEntryJSON "config/access" conf with
    | .error err => .error err
    | .ok entry =>
      match storage.Put entry with
      | .error err => .error err
      | .ok storage' => .ok (none, storage')

/-- Function `pathConfigAccessDelete`: the response (always nil) and the storage
after the call. -/
def pathConfigAccessDelete (storage : Storage) : Except Error (Option Response × Storage) :=
  match storage.Delete configAccessKey with
  | .error err => .error err
  | .ok storage' => .ok (none, storage')

/-- The value of a string field after a write: the supplied value when the
request supplies one, otherwise the previous value, otherwise the empty string. -/
def updated (supplied previous : Option String) : String :=
  match supplied, previous with
  | some v, _ => v
  | none, some p => p
  | none, none => ""

/-- A storage without entries whose methods all succeed. -/
def emptyStorage : Storage := ⟨fun _ => none, none, none, none⟩

/-- Request data built from the listed string and integer fields. -/
def fieldData (strs : List (String × String)) (nums : List (String × Int)) : FieldData :=
  ⟨fun k => strs.lookup k, fun k => nums.lookup k⟩

/-- The storage after a successful `Put` of the encoded configuration. -/
def stored (storage : Storage) (conf : accessConfig) : Storage :=
  { storage with
    entries := fun k => if k = "config/access" then some (marshal conf) else storage.entries k }

/-- A storage without entries whose `Get` fails while `Delete` succeeds. -/
def unreadableStorage : Storage := ⟨fun _ => none, some "storage unavailable", none, none⟩

/-- A storage holding a configuration under "config/access" and an unrelated
entry under "role/dev". -/
def sampleStorage : Storage :=
  ⟨fun k =>
      if k = "config/access" then some (marshal ⟨"http://nomad:4646", "s3cr3t", 32, "", "", ""⟩)
      else if k = "role/dev" then some (.object [("policies", .string "dev")])
      else none,
    none, none, none⟩

end Nomad

namespace Cassandra

/-! ## Bucket indexer -/

/-- Go's `strings.Split` for a one-character separator, on the characters of the
string: one more piece than there are separators, so the empty string splits into
one empty piece. -/
def splitOn (sep : Char) : List Char → List (List Char)
  | [] => [[]]
  | c :: cs =>
    if c = sep then [] :: splitOn sep cs
    else
      match splitOn sep cs with
      | [] => [[c]]
      | seg :: segs => (c :: seg) :: segs

/-- Go's `strings.Join` for a one-character separator, on characters. -/
def joinWith (sep : Char) : List (List Char) → List Char
  | [] => []
  | [seg] => seg
  | seg :: segs => seg ++ sep :: joinWith sep segs

/-- The segments of a key: the key split on "/". -/
def Split (key : String) : List String :=
  (splitOn '/' key.data).map String.mk

/-- Segments joined with "/". -/
def Join (segs : List String) : String :=
  String.mk (joinWith '/' (segs.map String.data))

/-- Modelled from the spec: `CassandraBackend.buckets` (physical/cassandra, only its
test is under src/), the spec's `bucketsOf`: "split the key on `/`; for i from 0
to len(segments)-1, emit the join of segments[0..i) (i=0 yields the root sentinel
`.`)". -/
def buckets (key : String) : List String :=
  let segments := Split key
  (List.range segments.length).map fun i =>
    if i = 0 then "." else Join (segments.take i)

/-- The table `expectations` of `TestCassandraBackendBuckets`. -/
def expectations : List (String × List String) :=
  [("", ["."]),
   ("a", ["."]),
   ("a/b", [".", "a"]),
   ("a/b/c/d/e", [".", "a", "a/b", "a/b/c", "a/b/c/d"])]

/-- The test `TestCassandraBackendBuckets`: every row of the table is what
`buckets` returns (`reflect.DeepEqual`). -/
def TestCassandraBackendBuckets : Bool :=
  expectations.all fun row => decide (buckets row.1 = row.2)

/-- Child names along a list of segments: every segment but the last carries the
trailing marker "/". -/
def children : List String → List String
  | [] => []
  | [seg] => [seg]
  | seg :: rest => (seg ++ "/") :: children rest

/-- Modelled from the spec: the child names of a key (`childNameOf`), one for each
bucket of `bucketsOf(key)` in order: "the single next path segment after `bucket`
in `key`, reattaching the trailing marker when that segment itself has descendants
under it". At depth `i` that is segment `i`, with "/" when segments follow. -/
def childNames (key : String) : List String :=
  children (Split key)

/-- The membership links a key needs: each bucket of the key paired with "the
corresponding child name". -/
def links (key : String) : List (String × String) :=
  (buckets key).zip (childNames key)

/-- Characters with every trailing `c` removed. -/
def trimRight (c : Char) (cs : List Char) : List Char :=
  (cs.reverse.dropWhile (· = c)).reverse

/-- Modelled from the spec: the normalisation of a listing prefix to a bucket id,
"stripping any trailing marker"; the empty path is the root, "represented as `.`". -/
def normalize (pre : String) : String :=
  match trimRight '/' pre.data with
  | [] => "."
  | cs => String.mk cs

/-! ## Storage adapter -/

/-- Stored values. -/
abbrev Bytes := List Nat

/-- Modelled from the spec: the error kinds an operation surfaces to its caller
(section 7): a transport or store error, and the distinct "operation aborted"
error of a cancelled call. -/
inductive StoreError where
  | transport
  | aborted
deriving DecidableEq

/-- Outcome of one underlying query: it completes (`none`) or ends in an error.
Every call of an operation meets an outcome of its own ("per-query errors are
surfaced to the caller"). -/
abbrev Outcome := Option StoreError

/-- Modelled from the spec: the persisted state behind `CassandraBackend`
(physical/cassandra, only its test is under src/): the entries table (full key to
value) and the buckets table (bucket id to its set of child names, the empty set
standing for a missing row). -/
structure CassandraBackend where
  entries : List (String × Bytes)
  members : String → List String

/-- The store right after construction: both tables empty. -/
def CassandraBackend.empty : CassandraBackend := ⟨[], fun _ => []⟩

/-- Idempotent set-add of a child name to the membership set of a bucket. -/
def addChild (members : String → List String) (bucket name : String) : String → List String :=
  fun b => if b = bucket then (if name ∈ members b then members b else members b ++ [name])
    else members b

/-- Removal of a child name from the membership set of a bucket. -/
def removeChild (members : String → List String) (bucket name : String) :
    String → List String :=
  fun b => if b = bucket then (members b).filter (· ≠ name) else members b

/-- Whether some entry of the table needs the link from `bucket` to `name`. -/
def hasDescendant (entries : List (String × Bytes)) (bucket name : String) : Bool :=
  entries.any fun e => decide ((bucket, name) ∈ links e.1)

/-- Modelled from the spec: `Get(key) -> value | absent`, "single read of the
entries table. No side effects. Fails with a transport error if the underlying
query cannot complete; absence is a normal (non-error) result". `q` is the outcome
of the query of this call. -/
def CassandraBackend.Get (b : CassandraBackend) (q : Outcome) (key : String) :
    Except StoreError (Option Bytes) :=
  match q with
  | some err => .error err
  | none => .ok (b.entries.lookup key)

/-- Modelled from the spec: `Put(key, value)`, "(a) upsert the entries row for
`key`; (b) for every bucket in `bucketsOf(key)`, add the corresponding child name
to that bucket's membership set", in the recommended order "membership rows first,
then the entry row": `qm` is the outcome of the membership writes, `qe` of the
entry write. A failure of the second step leaves the memberships written (the
"phantom listing"). The result is the state after the call and the error, if
any. -/
def CassandraBackend.Put (b : CassandraBackend) (qm qe : Outcome) (key : String)
    (value : Bytes) : CassandraBackend × Option StoreError :=
  match qm with
  | some err => (b, some err)
  | none =>
    let members := (links key).foldl (fun m l => addChild m l.1 l.2) b.members
    match qe with
    | some err => (⟨b.entries, members⟩, some err)
    | none => (⟨(key, value) :: b.entries.filter (fun e => e.1 ≠ key), members⟩, none)

/-- Modelled from the spec: `Delete(key)`, "remove the entries row" and clean the
membership links of the key up the ancestor chain, deepest bucket first, "but only
for buckets that no longer have any remaining descendant" (invariant I2, eager
cleanup). No window between the two is accepted for Delete, so a failed call
leaves the state as it was. The result is the state after the call and the error,
if any. -/
def CassandraBackend.Delete (b : CassandraBackend) (q : Outcome) (key : String) :
    CassandraBackend × Option StoreError :=
  match q with
  | some err => (b, some err)
  | none =>
    let entries := b.entries.filter (fun e => e.1 ≠ key)
    (⟨entries,
      (links key).reverse.foldl
        (fun m l => if hasDescendant entries l.1 l.2 then m else removeChild m l.1 l.2)
        b.members⟩, none)

/-- Calls that change the store, each with the outcomes of its queries. -/
inductive Op where
  | put (qm qe : Outcome) (key : String) (value : Bytes)
  | delete (q : Outcome) (key : String)

/-- State after one call; its error is dropped. -/
def CassandraBackend.apply (b : CassandraBackend) : Op → CassandraBackend
  | .put qm qe key value => (b.Put qm qe key value).1
  | .delete q key => (b.Delete q key).1

/-- State after a sequence of calls, failed ones included. -/
def CassandraBackend.run (b : CassandraBackend) : List Op → CassandraBackend
  | [] => b
  | op :: ops => (b.apply op).run ops

/-- A call that is not a `Put` failing between its two steps: it takes effect as a
whole or not at all. -/
def Op.atomic : Op → Bool
  | .put none (some _) _ _ => false
  | _ => true

/-- Modelled from the spec: `List(prefix)`, "normalize `prefix` to a bucket id
(stripping any trailing marker), read that bucket's membership set, and return the
child names verbatim"; no membership row gives the empty result. `q` is the
outcome of the query of this call. -/
def CassandraBackend.List (b : CassandraBackend) (q : Outcome) (pre : String) :
    Except StoreError (List String) :=
  match q with
  | some err => .error err
  | none => .ok (b.members (normalize pre))

/-- Invariant I1, from entries to memberships: every link of every stored key is
in the buckets table. -/
def Indexed (b : CassandraBackend) : Prop :=
  ∀ key value, (key, value) ∈ b.entries → ∀ l ∈ links key, l.2 ∈ b.members l.1

/-- Invariant I1, from memberships to entries, with set semantics: every child
name in the buckets table is a link of a stored key, and no membership set lists a
name twice. -/
def Exact (b : CassandraBackend) : Prop :=
  (∀ bucket name, name ∈ b.members bucket →
    ∃ key value, (key, value) ∈ b.entries ∧ (bucket, name) ∈ links key) ∧
  ∀ bucket, (b.members bucket).Nodup

/-- A store in which the key "k" already holds a value. -/
def sampleBackend : CassandraBackend :=
  ⟨[("k", [1, 2])], fun bucket => if bucket = "." then ["k"] else []⟩

end Cassandra

namespace Nomad

/-! ## Lemmas on the handlers -/

/-- Decoding what `marshal` produced gives the configuration back, whatever the
struct held before. -/
theorem decodeJSON_marshal (k : String) (conf base : accessConfig) :
    StorageEntry.DecodeJSON ⟨k, marshal conf⟩ base = .ok conf := by
  cases conf
  cases base
  simp [StorageEntry.DecodeJSON, marshal, decodeMembers, decodeMember]

/-- Reading back from `stored` yields the configuration whenever `Get` succeeds. -/
theorem readConfigAccess_stored (storage : Storage) (conf : accessConfig)
    (hget : storage.getErr = none) :
    readConfigAccess (stored storage conf) = .ok (some conf) := by
  have hs : (stored storage conf).getErr = none := hget
  simp only [readConfigAccess, Storage.Get, hs, configAccessKey]
  simp [stored, decodeJSON_marshal]

/-- A read that returns at all went through a successful `Get`. -/
theorem getErr_of_readConfigAccess {storage : Storage} {conf? : Option accessConfig}
    (h : readConfigAccess storage = .ok conf?) : storage.getErr = none := by
  cases hg : storage.getErr with
  | none => rfl
  | some e => simp [readConfigAccess, Storage.Get, hg] at h

/-- A write succeeds as soon as the read and the `Put` do. -/
theorem pathConfigAccessWrite_of_read {storage : Storage} {conf? : Option accessConfig}
    (data : FieldData) (hr : readConfigAccess storage = .ok conf?)
    (hp : storage.putErr = none) :
    pathConfigAccessWrite storage data =
      .ok (none, stored storage (applyFields (conf?.getD accessConfig.zero) data)) := by
  obtain ⟨entries, ge, pe, de⟩ := storage
  simp only at hp
  subst hp
  unfold pathConfigAccessWrite
  rw [hr]
  cases conf? <;> rfl

/-- Inversion of a successful write. -/
theorem pathConfigAccessWrite_ok {storage storage' : Storage} {data : FieldData}
    {resp : Option Response} (h : pathConfigAccessWrite storage data = .ok (resp, storage')) :
    ∃ conf?, readConfigAccess storage = .ok conf? ∧ storage.putErr = none ∧ resp = none ∧
      storage' = stored storage (applyFields (conf?.getD accessConfig.zero) data) := by
  cases hr : readConfigAccess storage with
  | error e => simp [pathConfigAccessWrite, hr] at h
  | ok conf? =>
    cases hp : storage.putErr with
    | some e => simp [pathConfigAccessWrite, hr, StorageEntryJSON, Storage.Put, hp] at h
    | none =>
      rw [pathConfigAccessWrite_of_read data hr hp] at h
      simp only [Except.ok.injEq, Prod.mk.injEq] at h
      exact ⟨conf?, rfl, rfl, h.1.symm, h.2.symm⟩

/-- Inversion of a successful delete. -/
theorem pathConfigAccessDelete_ok {storage storage' : Storage} {resp : Option Response}
    (h : pathConfigAccessDelete storage = .ok (resp, storage')) :
    resp = none ∧ storage'.getErr = storage.getErr ∧
      storage'.entries = fun k => if k = configAccessKey then none else storage.entries k := by
  cases hd : storage.deleteErr with
  | some e => simp [pathConfigAccessDelete, Storage.Delete, hd] at h
  | none =>
    simp only [pathConfigAccessDelete, Storage.Delete, hd, Except.ok.injEq, Prod.mk.injEq] at h
    obtain ⟨h1, h2⟩ := h
    subst h1 h2
    exact ⟨rfl, rfl, rfl⟩

/-- Closed form of the updates of `pathConfigAccessWrite`: each string field is
the supplied value or the previous one, the length is what `Get` yields. -/
theorem applyFields_eq (conf : accessConfig) (data : FieldData) :
    applyFields conf data =
      ⟨(data.GetOk "address").getD conf.Address,
       (data.GetOk "token").getD conf.Token,
       data.Get "max_token_name_length",
       (data.GetOk "ca_cert").getD conf.CACert,
       (data.GetOk "client_cert").getD conf.ClientCert,
       (data.GetOk "client_key").getD conf.ClientKey⟩ := by
  unfold applyFields
  cases data.GetOk "address" <;> cases data.GetOk "token" <;> cases data.GetOk "ca_cert" <;>
    cases data.GetOk "client_cert" <;> cases data.GetOk "client_key" <;> rfl

/-! ## Claims on the Nomad access configuration -/

/-- C2. Write/read round trip: on a storage whose `Get` and `Put` succeed and
whose entry under "config/access" is absent (`conf? = none`) or decodes to a
configuration (`conf? = some c`), `pathConfigAccessWrite` returns without error,
and after it `pathConfigAccessRead` returns a non-nil response whose "address" is
the address the request supplies, otherwise the stored one (empty when nothing was
stored), and whose "max_token_name_length" is the supplied integer, or 0 when the
request supplies none, whatever was stored before. -/
theorem write_read_round_trip (storage : Storage) (data : FieldData)
    (conf? : Option accessConfig)
    (hget : storage.getErr = none) (hput : storage.putErr = none)
    (hconf : readConfigAccess storage = .ok conf?) :
    (∃ storage', pathConfigAccessWrite storage data = .ok (none, storage')) ∧
    ∀ resp storage', pathConfigAccessWrite storage data = .ok (resp, storage') →
      pathConfigAccessRead storage' = .ok (some ⟨
        [("address", .string
            (updated (data.GetOk "address") (conf?.map accessConfig.Address))),
         ("max_token_name_length", .int
            (match data.ints "max_token_name_length" with
             | some n => n
             | none => 0))]⟩) := by
  refine ⟨⟨_, pathConfigAccessWrite_of_read data hconf hput⟩, ?_⟩
  intro resp storage' hw
  rw [pathConfigAccessWrite_of_read data hconf hput] at hw
  simp only [Except.ok.injEq, Prod.mk.injEq] at hw
  rw [← hw.2]
  simp only [pathConfigAccessRead, readConfigAccess_stored storage _ hget]
  cases conf? <;> cases hs : data.strings "address" <;>
    cases hi : data.ints "max_token_name_length" <;>
    simp [applyFields_eq, FieldData.GetOk, FieldData.Get, hs, hi, accessConfig.zero, updated]

/-- Witness of C2: an empty storage, a request with an address and a length. -/
theorem write_read_round_trip_witness :
    (∃ storage', pathConfigAccessWrite emptyStorage
        (fieldData [("address", "http://127.0.0.1:4646")] [("max_token_name_length", 64)]) =
        .ok (none, storage')) ∧
    ∀ resp storage', pathConfigAccessWrite emptyStorage
        (fieldData [("address", "http://127.0.0.1:4646")] [("max_token_name_length", 64)]) =
        .ok (resp, storage') →
      pathConfigAccessRead storage' = .ok (some ⟨
        [("address", .string "http://127.0.0.1:4646"),
         ("max_token_name_length", .int 64)]⟩) :=
  write_read_round_trip emptyStorage
    (fieldData [("address", "http://127.0.0.1:4646")] [("max_token_name_length", 64)])
    none rfl rfl rfl

/-- C3, counterexample: on a storage whose `Get` fails the delete returns without
error, and afterwards `configExistenceCheck` returns the error of `Get`, not
`(false, no error)`; so does `pathConfigAccessRead`. -/
theorem delete_then_check_error :
    (∃ storage', pathConfigAccessDelete unreadableStorage = .ok (none, storage') ∧
      configExistenceCheck storage' = .error "storage unavailable" ∧
      pathConfigAccessRead storage' = .error "storage unavailable") ∧
    ¬ ∀ storage resp storage', pathConfigAccessDelete storage = .ok (resp, storage') →
      configExistenceCheck storage' = .ok false ∧ pathConfigAccessRead storage' = .ok none := by
  refine ⟨⟨_, rfl, rfl, rfl⟩, fun h => ?_⟩
  have h1 := (h unreadableStorage none _ rfl).1
  simp [configExistenceCheck, readConfigAccess, Storage.Get, unreadableStorage] at h1

/-- C3, amended: after `pathConfigAccessDelete` returns without error the key
"config/access" holds no entry and every other key holds what it held before; and
on a storage whose `Get` succeeds, `configExistenceCheck` then returns
`(false, no error)` and `pathConfigAccessRead` a nil response with no error. -/
theorem delete_removes_config (storage storage' : Storage) (resp : Option Response)
    (hdel : pathConfigAccessDelete storage = .ok (resp, storage')) :
    resp = none ∧
    storage'.entries "config/access" = none ∧
    (∀ k, k ≠ "config/access" → storage'.entries k = storage.entries k) ∧
    (storage.getErr = none →
      configExistenceCheck storage' = .ok false ∧ pathConfigAccessRead storage' = .ok none) := by
  obtain ⟨hr, hg, he⟩ := pathConfigAccessDelete_ok hdel
  refine ⟨hr, by simp [he, configAccessKey], ?_, ?_⟩
  · intro k hk
    simp [he, configAccessKey, hk]
  · intro hget
    have hread : readConfigAccess storage' = .ok none := by
      simp [readConfigAccess, Storage.Get, hg, hget, he]
    simp [configExistenceCheck, pathConfigAccessRead, hread]

/-- Witness of the amended C3 on `sampleStorage`. -/
theorem delete_removes_config_witness :
    ∃ storage', pathConfigAccessDelete sampleStorage = .ok (none, storage') ∧
      storage'.entries "config/access" = none ∧
      storage'.entries "role/dev" = some (.object [("policies", .string "dev")]) ∧
      configExistenceCheck storage' = .ok false ∧ pathConfigAccessRead storage' = .ok none :=
  ⟨_, rfl,
    (delete_removes_config sampleStorage _ none rfl).2.1,
    ((delete_removes_config sampleStorage _ none rfl).2.2.1 "role/dev" (by decide)).trans rfl,
    (delete_removes_config sampleStorage _ none rfl).2.2.2 rfl⟩

/-- C7, counterexample: a request that supplies only `client_cert`, written to an
empty storage, is stored as such: the write returns without error and the stored
configuration has a non-empty `ClientCert` and an empty `ClientKey`. -/
theorem write_cert_without_key :
    readConfigAccess emptyStorage = .ok none ∧
    (∃ storage', pathConfigAccessWrite emptyStorage
        (fieldData [("client_cert", "-----BEGIN CERTIFICATE-----")] []) = .ok (none, storage') ∧
      readConfigAccess storage' =
        .ok (some ⟨"", "", 0, "", "-----BEGIN CERTIFICATE-----", ""⟩)) ∧
    ¬ ∀ storage data conf? resp storage' conf,
      readConfigAccess storage = .ok conf? →
      (∀ c, conf? = some c → (c.ClientCert ≠ "" ↔ c.ClientKey ≠ "")) →
      pathConfigAccessWrite storage data = .ok (resp, storage') →
      readConfigAccess storage' = .ok (some conf) →
      (conf.ClientCert ≠ "" ↔ conf.ClientKey ≠ "") := by
  refine ⟨rfl, ⟨_, rfl, rfl⟩, fun h => ?_⟩
  have := h emptyStorage (fieldData [("client_cert", "-----BEGIN CERTIFICATE-----")] []) none
    none _ ⟨"", "", 0, "", "-----BEGIN CERTIFICATE-----", ""⟩ rfl (fun _ hc => nomatch hc) rfl rfl
  exact absurd this (by decide)

/-- C7, amended: on a storage that holds no configuration, or one whose
`ClientCert` and `ClientKey` are both empty or both non-empty, a request that
supplies neither of `client_cert` and `client_key`, or supplies both of them both
empty or both non-empty, leaves after a successful write a stored configuration
whose `ClientCert` is non-empty if and only if its `ClientKey` is. -/
theorem write_keeps_cert_key_pairing (storage storage' : Storage) (data : FieldData)
    (conf? : Option accessConfig) (resp : Option Response)
    (hconf : readConfigAccess storage = .ok conf?)
    (hpre : ∀ c, conf? = some c → (c.ClientCert ≠ "" ↔ c.ClientKey ≠ ""))
    (hdata : (data.GetOk "client_cert" = none ∧ data.GetOk "client_key" = none) ∨
      ∃ cert key, data.GetOk "client_cert" = some cert ∧ data.GetOk "client_key" = some key ∧
        (cert ≠ "" ↔ key ≠ ""))
    (hw : pathConfigAccessWrite storage data = .ok (resp, storage')) :
    ∃ conf, readConfigAccess storage' = .ok (some conf) ∧
      (conf.ClientCert ≠ "" ↔ conf.ClientKey ≠ "") := by
  obtain ⟨c?, hr, hp, -, hs⟩ := pathConfigAccessWrite_ok hw
  rw [hconf] at hr
  cases hr
  refine ⟨_, hs ▸ readConfigAccess_stored storage _ (getErr_of_readConfigAccess hconf), ?_⟩
  rw [applyFields_eq]
  rcases hdata with ⟨h1, h2⟩ | ⟨cert, key, h1, h2, h3⟩
  · simp only [h1, h2, Option.getD_none]
    cases conf? with
    | none => simp [accessConfig.zero]
    | some c => simpa using hpre c rfl
  · simpa [h1, h2] using h3

/-- Witness of the amended C7: certificate and key supplied together. -/
theorem write_keeps_cert_key_pairing_witness :
    ∃ conf, readConfigAccess
        (stored emptyStorage (applyFields accessConfig.zero
          (fieldData [("client_cert", "CERT"), ("client_key", "KEY")] []))) = .ok (some conf) ∧
      (conf.ClientCert ≠ "" ↔ conf.ClientKey ≠ "") :=
  write_keeps_cert_key_pairing emptyStorage _
    (fieldData [("client_cert", "CERT"), ("client_key", "KEY")] []) none none rfl
    (fun _ h => nomatch h) (Or.inr ⟨"CERT", "KEY", rfl, rfl, by decide⟩) rfl

/-- C8. Reading never discloses secret material: a non-nil response of
`pathConfigAccessRead` has exactly the two keys "address" and
"max_token_name_length", and two storages whose stored configurations agree on
`Address` and `MaxTokenNameLength`, whatever their `Token`, `CACert`, `ClientCert`
and `ClientKey`, give equal responses. -/
theorem read_discloses_no_secret :
    (∀ storage resp, pathConfigAccessRead storage = .ok (some resp) →
      resp.Data.map Prod.fst = ["address", "max_token_name_length"]) ∧
    (∀ storage₁ storage₂ c₁ c₂,
      readConfigAccess storage₁ = .ok (some c₁) → readConfigAccess storage₂ = .ok (some c₂) →
      c₁.Address = c₂.Address → c₁.MaxTokenNameLength = c₂.MaxTokenNameLength →
      pathConfigAccessRead storage₁ = pathConfigAccessRead storage₂) := by
  constructor
  · intro storage resp h
    unfold pathConfigAccessRead at h
    cases hr : readConfigAccess storage with
    | error e => simp [hr] at h
    | ok conf? =>
      cases conf? with
      | none => simp [hr] at h
      | some conf =>
        simp only [hr, Except.ok.injEq, Option.some.injEq] at h
        rw [← h]
        rfl
  · intro s₁ s₂ c₁ c₂ h₁ h₂ ha hm
    simp [pathConfigAccessRead, h₁, h₂, ha, hm]

/-- Witness of C8: two stored configurations that differ in every secret field. -/
theorem read_discloses_no_secret_witness :
    pathConfigAccessRead (stored emptyStorage ⟨"http://nomad:4646", "t1", 32, "ca1", "cert1", "key1"⟩) =
      pathConfigAccessRead (stored emptyStorage ⟨"http://nomad:4646", "t2", 32, "", "", ""⟩) ∧
    ∀ resp, pathConfigAccessRead
        (stored emptyStorage ⟨"http://nomad:4646", "t1", 32, "ca1", "cert1", "key1"⟩) =
        .ok (some resp) → resp.Data.map Prod.fst = ["address", "max_token_name_length"] :=
  ⟨read_discloses_no_secret.2 _ _ ⟨"http://nomad:4646", "t1", 32, "ca1", "cert1", "key1"⟩
      ⟨"http://nomad:4646", "t2", 32, "", "", ""⟩ rfl rfl rfl rfl,
   fun resp h => read_discloses_no_secret.1 _ resp h⟩

/-- C9. Partial update: after a successful `pathConfigAccessWrite` the stored
configuration has, in each of `Address`, `Token`, `CACert`, `ClientCert` and
`ClientKey`, the value the request supplies for the field when it supplies one,
and otherwise the value stored before (the empty string when nothing was stored);
and no storage key other than "config/access" has changed. -/
theorem write_updates_supplied_fields (storage storage' : Storage) (data : FieldData)
    (resp : Option Response)
    (hw : pathConfigAccessWrite storage data = .ok (resp, storage')) :
    ∃ conf? conf, readConfigAccess storage = .ok conf? ∧
      readConfigAccess storage' = .ok (some conf) ∧
      conf.Address = updated (data.GetOk "address") (conf?.map accessConfig.Address) ∧
      conf.Token = updated (data.GetOk "token") (conf?.map accessConfig.Token) ∧
      conf.CACert = updated (data.GetOk "ca_cert") (conf?.map accessConfig.CACert) ∧
      conf.ClientCert =
        updated (data.GetOk "client_cert") (conf?.map accessConfig.ClientCert) ∧
      conf.ClientKey = updated (data.GetOk "client_key") (conf?.map accessConfig.ClientKey) ∧
      ∀ k, k ≠ "config/access" → storage'.entries k = storage.entries k := by
  obtain ⟨conf?, hr, hp, -, hs⟩ := pathConfigAccessWrite_ok hw
  refine ⟨conf?, _, hr, hs ▸ readConfigAccess_stored storage _ (getErr_of_readConfigAccess hr),
    ?_, ?_, ?_, ?_, ?_, ?_⟩
  · rw [applyFields_eq]
    cases conf? <;> cases data.GetOk "address" <;> rfl
  · rw [applyFields_eq]
    cases conf? <;> cases data.GetOk "token" <;> rfl
  · rw [applyFields_eq]
    cases conf? <;> cases data.GetOk "ca_cert" <;> rfl
  · rw [applyFields_eq]
    cases conf? <;> cases data.GetOk "client_cert" <;> rfl
  · rw [applyFields_eq]
    cases conf? <;> cases data.GetOk "client_key" <;> rfl
  · intro k hk
    simp [hs, stored, hk]

/-- Witness of C9: a token-only request on `sampleStorage` replaces the token and
keeps the address. -/
theorem write_updates_supplied_fields_witness :
    ∃ storage', pathConfigAccessWrite sampleStorage (fieldData [("token", "n3w")] []) =
        .ok (none, storage') ∧
      ∃ conf? conf, readConfigAccess sampleStorage = .ok conf? ∧
        readConfigAccess storage' = .ok (some conf) ∧
        conf.Address = updated none (conf?.map accessConfig.Address) ∧
        conf.Token = updated (some "n3w") (conf?.map accessConfig.Token) ∧
        conf.CACert = updated none (conf?.map accessConfig.CACert) ∧
        conf.ClientCert = updated none (conf?.map accessConfig.ClientCert) ∧
        conf.ClientKey = updated none (conf?.map accessConfig.ClientKey) ∧
        ∀ k, k ≠ "config/access" → storage'.entries k = sampleStorage.entries k :=
  ⟨_, rfl, write_updates_supplied_fields sampleStorage _ (fieldData [("token", "n3w")] []) none rfl⟩

end Nomad

namespace Cassandra

/-! ## Lemmas on splitting and joining -/

theorem splitOn_ne_nil (sep : Char) (cs : List Char) : splitOn sep cs ≠ [] := by
  cases cs with
  | nil => simp [splitOn]
  | cons c cs =>
    unfold splitOn
    split
    · simp
    · split <;> simp

/-- Joining the pieces of a split gives the characters back. -/
theorem joinWith_splitOn (sep : Char) (cs : List Char) : joinWith sep (splitOn sep cs) = cs := by
  induction cs with
  | nil => rfl
  | cons c cs ih =>
    unfold splitOn
    split
    · next h =>
      cases hs : splitOn sep cs with
      | nil => exact absurd hs (splitOn_ne_nil sep cs)
      | cons seg segs =>
        rw [hs] at ih
        simp [joinWith, ih, h]
    · cases hs : splitOn sep cs with
      | nil => exact absurd hs (splitOn_ne_nil sep cs)
      | cons seg segs =>
        rw [hs] at ih
        cases segs with
        | nil => simpa [joinWith] using ih
        | cons seg' segs' =>
          simp only [joinWith] at ih ⊢
          simp [ih]

/-- Length of a join: every piece counts its characters and one separator, the
last piece no separator. -/
theorem length_joinWith (sep : Char) (segs : List (List Char)) (h : segs ≠ []) :
    (joinWith sep segs).length + 1 = (segs.map fun s => s.length + 1).sum := by
  induction segs with
  | nil => exact absurd rfl h
  | cons seg segs ih =>
    cases segs with
    | nil => simp [joinWith]
    | cons seg' segs' =>
      have := ih (by simp)
      simp only [joinWith, List.length_append, List.length_cons, List.map_cons,
        List.sum_cons] at this ⊢
      omega

theorem sum_take_lt (l : List Nat) (i : Nat) (hi : i < l.length) (hpos : ∀ x ∈ l, 0 < x) :
    (l.take i).sum < l.sum := by
  induction l generalizing i with
  | nil => simp at hi
  | cons x xs ih =>
    cases i with
    | zero =>
      have := hpos x (by simp)
      simp only [List.take_zero, List.sum_nil, List.sum_cons]
      omega
    | succ j =>
      have := ih j (by simpa using hi) (fun y hy => hpos y (by simp [hy]))
      simp only [List.take_succ_cons, List.sum_cons]
      omega

/-- A join of a proper, non-empty initial part of the pieces is shorter than the
full join. -/
theorem length_joinWith_take_lt (sep : Char) (segs : List (List Char)) (i : Nat)
    (hpos : 0 < i) (hi : i < segs.length) :
    (joinWith sep (segs.take i)).length < (joinWith sep segs).length := by
  have hne : segs ≠ [] := by
    intro h
    simp [h] at hi
  have hfull := length_joinWith sep segs hne
  have hne' : segs.take i ≠ [] := by
    cases segs with
    | nil => exact absurd rfl hne
    | cons s ss =>
      cases i with
      | zero => omega
      | succ j => simp
  have hpart := length_joinWith sep (segs.take i) hne'
  have hlt := sum_take_lt (segs.map fun s => s.length + 1) i (by simpa using hi)
    (by
      intro x hx
      simp only [List.mem_map] at hx
      obtain ⟨s, -, rfl⟩ := hx
      omega)
  rw [← List.map_take] at hlt
  omega

theorem map_data_Split (key : String) : (Split key).map String.data = splitOn '/' key.data := by
  simp [Split, Function.comp_def]

/-- The segments of a key joined with "/" are the key. -/
theorem Join_Split (key : String) : Join (Split key) = key := by
  simp [Join, map_data_Split, joinWith_splitOn]

theorem length_Split (key : String) : (Split key).length = (splitOn '/' key.data).length := by
  simp [Split]

/-- No proper, non-empty initial part of the segments joins to the key itself. -/
theorem Join_take_ne (key : String) (i : Nat) (hpos : 0 < i) (hi : i < (Split key).length) :
    Join ((Split key).take i) ≠ key := by
  intro h
  have hlen := length_joinWith_take_lt '/' (splitOn '/' key.data) i hpos (by
    rwa [length_Split] at hi)
  have hd : (Join ((Split key).take i)).data = key.data := by rw [h]
  simp only [Join, List.map_take, map_data_Split] at hd
  rw [hd, joinWith_splitOn] at hlen
  exact absurd hlen (Nat.lt_irrefl _)

theorem length_buckets (key : String) : (buckets key).length = (Split key).length := by
  simp [buckets]

theorem buckets_getElem? (key : String) (i : Nat) (hi : i < (Split key).length) :
    (buckets key)[i]? = some (if i = 0 then "." else Join ((Split key).take i)) := by
  simp [buckets, List.getElem?_map, List.getElem?_range hi]

theorem not_mem_of_mem_splitOn (sep : Char) (cs s : List Char) (h : s ∈ splitOn sep cs) :
    sep ∉ s := by
  induction cs generalizing s with
  | nil =>
    simp only [splitOn, List.mem_singleton] at h
    simp [h]
  | cons c cs ih =>
    unfold splitOn at h
    split at h
    · rcases List.mem_cons.mp h with rfl | h
      · simp
      · exact ih s h
    · next hc =>
      cases hs : splitOn sep cs with
      | nil => exact absurd hs (splitOn_ne_nil sep cs)
      | cons seg segs =>
        rw [hs] at h ih
        rcases List.mem_cons.mp h with rfl | h
        · intro hmem
          rcases List.mem_cons.mp hmem with rfl | hmem
          · exact hc rfl
          · exact ih seg (by simp) hmem
        · exact ih s (List.mem_cons_of_mem _ h)

/-! ## Lemmas on the storage adapter -/

theorem lookup_filter_ne (key : String) (entries : List (String × Bytes)) :
    (entries.filter fun e => e.1 ≠ key).lookup key = none := by
  induction entries with
  | nil => rfl
  | cons e es ih =>
    obtain ⟨k, v⟩ := e
    by_cases h : k = key
    · simpa [List.filter_cons, h] using ih
    · have hne : (key == k) = false := by simpa using fun h' => h h'.symm
      simpa [List.filter_cons, h, List.lookup_cons, hne] using ih

theorem mem_of_lookup {key : String} {value : Bytes} {entries : List (String × Bytes)}
    (h : entries.lookup key = some value) : (key, value) ∈ entries := by
  induction entries with
  | nil => simp at h
  | cons e es ih =>
    obtain ⟨k, v⟩ := e
    by_cases hk : key = k
    · subst hk
      simp only [List.lookup_cons, beq_self_eq_true, Option.some.injEq] at h
      simp [h]
    · have hne : (key == k) = false := by simpa using hk
      simp only [List.lookup_cons, hne] at h
      exact List.mem_cons_of_mem _ (ih h)

theorem lookup_of_mem {key : String} {value : Bytes} {entries : List (String × Bytes)}
    (h : (key, value) ∈ entries) : ∃ v, entries.lookup key = some v := by
  induction entries with
  | nil => simp at h
  | cons e es ih =>
    obtain ⟨k, v⟩ := e
    by_cases hk : key = k
    · subst hk
      exact ⟨v, by simp [List.lookup_cons]⟩
    · have hne : (key == k) = false := by simpa using hk
      rcases List.mem_cons.mp h with heq | hmem
      · exact absurd (Prod.mk.inj heq).1 hk
      · obtain ⟨v', hv⟩ := ih hmem
        exact ⟨v', by simp [List.lookup_cons, hne, hv]⟩

theorem mem_addChild (members : String → List String) (bucket name b x : String) :
    x ∈ addChild members bucket name b ↔ x ∈ members b ∨ (b = bucket ∧ x = name) := by
  unfold addChild
  by_cases hb : b = bucket
  · by_cases hn : name ∈ members b
    · simp only [hb, if_true, true_and]
      rw [hb] at hn
      simp only [hn, if_true]
      constructor
      · exact Or.inl
      · rintro (h | h)
        · exact h
        · exact h ▸ hn
    · rw [hb] at hn
      simp [hb, hn]
  · simp [hb]

theorem nodup_addChild (members : String → List String) (bucket name b : String)
    (h : (members b).Nodup) : (addChild members bucket name b).Nodup := by
  unfold addChild
  by_cases hb : b = bucket
  · by_cases hn : name ∈ members b
    · simp only [if_pos hb, if_pos hn]
      exact h
    · simp only [if_pos hb, if_neg hn]
      exact List.Nodup.append h (List.nodup_singleton _) (by simpa using hn)
  · simp only [if_neg hb]
    exact h

/-- After the membership writes of a `Put` a bucket holds what it held and the
child names the written links give it. -/
theorem mem_foldl_addChild (l : List (String × String)) (members : String → List String)
    (b x : String) :
    x ∈ (l.foldl (fun m p => addChild m p.1 p.2) members) b ↔ x ∈ members b ∨ (b, x) ∈ l := by
  induction l generalizing members with
  | nil => simp
  | cons a l ih =>
    obtain ⟨a1, a2⟩ := a
    simp only [List.foldl_cons, ih, mem_addChild, List.mem_cons, Prod.mk.injEq]
    tauto

theorem nodup_foldl_addChild (l : List (String × String)) (members : String → List String)
    (h : ∀ b, (members b).Nodup) (b : String) :
    ((l.foldl (fun m p => addChild m p.1 p.2) members) b).Nodup := by
  induction l generalizing members with
  | nil => exact h b
  | cons a l ih =>
    simp only [List.foldl_cons]
    exact ih _ (fun b' => nodup_addChild members a.1 a.2 b' (h b'))

theorem mem_removeChild (members : String → List String) (bucket name b x : String) :
    x ∈ removeChild members bucket name b ↔ x ∈ members b ∧ ¬ (b = bucket ∧ x = name) := by
  unfold removeChild
  by_cases hb : b = bucket <;> simp [hb]

theorem nodup_removeChild (members : String → List String) (bucket name b : String)
    (h : (members b).Nodup) : (removeChild members bucket name b).Nodup := by
  unfold removeChild
  by_cases hb : b = bucket
  · simp only [if_pos hb]
    exact List.Nodup.filter _ h
  · simp only [if_neg hb]
    exact h

/-- The cleanup of a `Delete` keeps a child name exactly when it is not a link of
the deleted key or still has a descendant. -/
theorem mem_foldl_cleanup (entries : List (String × Bytes)) (l : List (String × String))
    (members : String → List String) (b x : String) :
    x ∈ (l.foldl (fun m p =>
      if hasDescendant entries p.1 p.2 then m else removeChild m p.1 p.2) members) b ↔
    x ∈ members b ∧ ((b, x) ∈ l → hasDescendant entries b x = true) := by
  induction l generalizing members with
  | nil => simp
  | cons a l ih =>
    obtain ⟨a1, a2⟩ := a
    simp only [List.foldl_cons, ih, List.mem_cons, Prod.mk.injEq]
    by_cases hd : hasDescendant entries a1 a2 = true
    · simp only [hd, if_true]
      constructor
      · rintro ⟨hm, hl⟩
        refine ⟨hm, ?_⟩
        rintro (⟨rfl, rfl⟩ | h)
        · exact hd
        · exact hl h
      · rintro ⟨hm, hl⟩
        exact ⟨hm, fun h => hl (Or.inr h)⟩
    · simp only [hd, Bool.false_eq_true, if_false, mem_removeChild]
      constructor
      · rintro ⟨⟨hm, hne⟩, hl⟩
        refine ⟨hm, ?_⟩
        rintro (h | h)
        · exact absurd h hne
        · exact hl h
      · rintro ⟨hm, hl⟩
        refine ⟨⟨hm, ?_⟩, fun h => hl (Or.inr h)⟩
        rintro ⟨rfl, rfl⟩
        exact hd (hl (Or.inl ⟨rfl, rfl⟩))

theorem nodup_foldl_cleanup (entries : List (String × Bytes)) (l : List (String × String))
    (members : String → List String) (h : ∀ b, (members b).Nodup) (b : String) :
    ((l.foldl (fun m p =>
      if hasDescendant entries p.1 p.2 then m else removeChild m p.1 p.2) members) b).Nodup := by
  induction l generalizing members with
  | nil => exact h b
  | cons a l ih =>
    simp only [List.foldl_cons]
    apply ih
    intro b'
    split
    · exact h b'
    · exact nodup_removeChild members a.1 a.2 b' (h b')

theorem hasDescendant_iff (entries : List (String × Bytes)) (bucket name : String) :
    hasDescendant entries bucket name = true ↔
      ∃ key value, (key, value) ∈ entries ∧ (bucket, name) ∈ links key := by
  simp only [hasDescendant, List.any_eq_true, decide_eq_true_eq]
  constructor
  · rintro ⟨⟨k, v⟩, hmem, hl⟩
    exact ⟨k, v, hmem, hl⟩
  · rintro ⟨k, v, hmem, hl⟩
    exact ⟨(k, v), hmem, hl⟩

theorem Indexed_empty : Indexed CassandraBackend.empty := by
  intro key value h
  simp [CassandraBackend.empty] at h

theorem Exact_empty : Exact CassandraBackend.empty := by
  constructor
  · intro bucket name h
    simp [CassandraBackend.empty] at h
  · intro bucket
    simp [CassandraBackend.empty]

/-- Every call, failed or not, keeps the links of the stored keys in place. -/
theorem Indexed_apply {b : CassandraBackend} (op : Op) (hb : Indexed b) :
    Indexed (b.apply op) := by
  cases op with
  | put qm qe key value =>
    cases qm with
    | some e => exact hb
    | none =>
      cases qe with
      | some e =>
        intro k v hk l hl
        exact (mem_foldl_addChild _ _ _ _).mpr (Or.inl (hb k v hk l hl))
      | none =>
        intro k v hk l hl
        refine (mem_foldl_addChild _ _ _ _).mpr ?_
        rcases List.mem_cons.mp hk with heq | hold
        · have : k = key := (Prod.mk.inj heq).1
          subst this
          exact Or.inr hl
        · exact Or.inl (hb k v (List.mem_filter.mp hold).1 l hl)
  | delete q key =>
    cases q with
    | some e => exact hb
    | none =>
      intro k v hk l hl
      refine (mem_foldl_cleanup _ _ _ _ _).mpr ⟨hb k v (List.mem_filter.mp hk).1 l hl, fun _ => ?_⟩
      exact (hasDescendant_iff _ _ _).mpr ⟨k, v, hk, hl⟩

/-- Every call that takes effect as a whole or not at all keeps the buckets table
free of names without a stored key and free of duplicates. -/
theorem Exact_apply {b : CassandraBackend} (op : Op) (hop : op.atomic = true) (hb : Exact b) :
    Exact (b.apply op) := by
  obtain ⟨hghost, hnodup⟩ := hb
  cases op with
  | put qm qe key value =>
    cases qm with
    | some e => exact ⟨hghost, hnodup⟩
    | none =>
      cases qe with
      | some e => simp [Op.atomic] at hop
      | none =>
        refine ⟨?_, fun bucket => nodup_foldl_addChild _ _ hnodup bucket⟩
        intro bucket name hmem
        rcases (mem_foldl_addChild _ _ _ _).mp hmem with hold | hnew
        · obtain ⟨k, v, hk, hl⟩ := hghost bucket name hold
          by_cases hkey : k = key
          · subst hkey
            exact ⟨k, value, List.mem_cons_self _ _, hl⟩
          · exact ⟨k, v, List.mem_cons_of_mem _ (List.mem_filter.mpr ⟨hk, by simpa using hkey⟩),
              hl⟩
        · exact ⟨key, value, List.mem_cons_self _ _, hnew⟩
  | delete q key =>
    cases q with
    | some e => exact ⟨hghost, hnodup⟩
    | none =>
      refine ⟨?_, fun bucket => nodup_foldl_cleanup _ _ _ hnodup bucket⟩
      intro bucket name hmem
      obtain ⟨hold, hkeep⟩ := (mem_foldl_cleanup _ _ _ _ _).mp hmem
      obtain ⟨k, v, hk, hl⟩ := hghost bucket name hold
      by_cases hkey : k = key
      · subst hkey
        exact (hasDescendant_iff _ _ _).mp (hkeep (List.mem_reverse.mpr hl))
      · exact ⟨k, v, List.mem_filter.mpr ⟨hk, by simpa using hkey⟩, hl⟩

theorem Indexed_run (ops : List Op) {b : CassandraBackend} (hb : Indexed b) :
    Indexed (b.run ops) := by
  induction ops generalizing b with
  | nil => exact hb
  | cons op ops ih => exact ih (Indexed_apply op hb)

theorem Exact_run (ops : List Op) {b : CassandraBackend} (hops : ∀ op ∈ ops, op.atomic = true)
    (hb : Exact b) : Exact (b.run ops) := by
  induction ops generalizing b with
  | nil => exact hb
  | cons op ops ih =>
    exact ih (fun o ho => hops o (List.mem_cons_of_mem _ ho))
      (Exact_apply op (hops op (List.mem_cons_self _ _)) hb)

/-! ## Links of a key -/

theorem length_children (segs : List String) : (children segs).length = segs.length := by
  induction segs with
  | nil => rfl
  | cons s rest ih =>
    cases rest with
    | nil => rfl
    | cons s' rest' => simp only [children, List.length_cons, ih]

/-- The child name at depth `i` is segment `i`, followed by the marker "/" exactly
when further segments follow. -/
theorem children_getElem? (segs : List String) (i : Nat) (seg : String)
    (h : segs[i]? = some seg) :
    (children segs)[i]? = some (if i + 1 < segs.length then seg ++ "/" else seg) := by
  induction segs generalizing i with
  | nil => simp at h
  | cons s rest ih =>
    cases rest with
    | nil =>
      cases i with
      | zero =>
        simp only [List.getElem?_cons_zero, Option.some.injEq] at h
        simp [children, h]
      | succ j => simp at h
    | cons s' rest' =>
      cases i with
      | zero =>
        simp only [List.getElem?_cons_zero, Option.some.injEq] at h
        simp [children, h]
      | succ j =>
        simp only [List.getElem?_cons_succ] at h
        have := ih j h
        simp only [children, List.getElem?_cons_succ, this, List.length_cons]
        congr 1
        by_cases hj : j + 1 < rest'.length + 1 <;> simp [hj]

/-- A bucket of a key at depth `i` and the child name at that depth are a link of
the key. -/
theorem mem_links (key : String) (i : Nat) (bucket seg : String)
    (hb : (buckets key)[i]? = some bucket) (hs : (Split key)[i]? = some seg) :
    (bucket, if i + 1 < (Split key).length then seg ++ "/" else seg) ∈ links key := by
  apply List.mem_iff_getElem?.mpr
  refine ⟨i, ?_⟩
  rw [links, List.getElem?_zip_eq_some]
  exact ⟨hb, children_getElem? (Split key) i seg hs⟩

/-- Every link of a key pairs its bucket at some depth with the segment at that
depth, marked when further segments follow. -/
theorem links_depth (key bucket name : String) (h : (bucket, name) ∈ links key) :
    ∃ i seg, (buckets key)[i]? = some bucket ∧ (Split key)[i]? = some seg ∧
      name = if i + 1 < (Split key).length then seg ++ "/" else seg := by
  obtain ⟨i, hi⟩ := List.mem_iff_getElem?.mp h
  rw [links, List.getElem?_zip_eq_some] at hi
  obtain ⟨hb, hc⟩ := hi
  have hlt : i < (Split key).length := by
    rcases Nat.lt_or_ge i (Split key).length with h' | h'
    · exact h'
    · have : (childNames key)[i]? = none :=
        List.getElem?_eq_none (by rw [childNames, length_children]; exact h')
      rw [this] at hc
      simp at hc
  refine ⟨i, (Split key)[i], hb, List.getElem?_eq_getElem hlt, ?_⟩
  have := children_getElem? (Split key) i _ (List.getElem?_eq_getElem hlt)
  simp only [childNames] at hc
  rw [this] at hc
  exact (Option.some.inj hc).symm

/-! ## Buckets in normal form -/

theorem joinWith_eq_append_getLast (sep : Char) (segs : List (List Char)) (h : segs ≠ []) :
    ∃ pre, joinWith sep segs = pre ++ segs.getLast h := by
  induction segs with
  | nil => exact absurd rfl h
  | cons s ss ih =>
    cases ss with
    | nil => exact ⟨[], by simp [joinWith]⟩
    | cons s' ss' =>
      obtain ⟨pre, hpre⟩ := ih (by simp)
      refine ⟨s ++ sep :: pre, ?_⟩
      simp only [joinWith, hpre, List.getLast_cons_cons]
      simp

theorem trimRight_append_singleton (sep c : Char) (pre : List Char) (hc : c ≠ sep) :
    trimRight sep (pre ++ [c]) = pre ++ [c] := by
  simp [trimRight, List.dropWhile_cons, hc]

/-- Characters that do not end in "/" and are not empty are their own normal form. -/
theorem normalize_mk_append (pre : List Char) (c : Char) (hc : c ≠ '/') :
    normalize (String.mk (pre ++ [c])) = String.mk (pre ++ [c]) := by
  unfold normalize
  rw [trimRight_append_singleton '/' c pre hc]
  cases pre <;> rfl

/-- Every bucket of a key none of whose non-final segments is empty is in normal
form: listing it reads its own membership set. -/
theorem normalize_bucket (key : String)
    (hkey : ∀ i seg, i + 1 < (Split key).length → (Split key)[i]? = some seg → seg ≠ "")
    (bucket : String) (hb : bucket ∈ buckets key) : normalize bucket = bucket := by
  obtain ⟨i, hi, rfl⟩ : ∃ i, i < (Split key).length ∧
      bucket = if i = 0 then "." else Join ((Split key).take i) := by
    simp only [buckets, List.mem_map, List.mem_range] at hb
    obtain ⟨i, hi, h⟩ := hb
    exact ⟨i, hi, h.symm⟩
  by_cases h0 : i = 0
  · rw [if_pos h0]
    decide
  · rw [if_neg h0]
    have hi' : i < (splitOn '/' key.data).length := by rwa [length_Split] at hi
    have hne : (splitOn '/' key.data).take i ≠ [] := by
      intro h
      rcases List.take_eq_nil_iff.mp h with h | h
      · exact h0 h
      · exact splitOn_ne_nil _ _ h
    obtain ⟨pre, hpre⟩ := joinWith_eq_append_getLast '/' _ hne
    have him : i - 1 < (splitOn '/' key.data).length := by omega
    have hlast : ((splitOn '/' key.data).take i).getLast hne =
        (splitOn '/' key.data)[i - 1] := by
      rw [List.getLast_eq_getElem, List.getElem_take]
      congr 1
      rw [List.length_take, Nat.min_eq_left (Nat.le_of_lt hi')]
    have hsegne : (splitOn '/' key.data)[i - 1] ≠ [] := by
      intro hnil
      refine hkey (i - 1) (String.mk (splitOn '/' key.data)[i - 1]) (by omega) ?_ ?_
      · rw [Split, List.getElem?_map, List.getElem?_eq_getElem him]
        rfl
      · rw [hnil]
    have hnosep : '/' ∉ (splitOn '/' key.data)[i - 1] :=
      not_mem_of_mem_splitOn '/' key.data _ (List.getElem_mem _)
    obtain ⟨l, c, hlc⟩ : ∃ l c, (splitOn '/' key.data)[i - 1] = l ++ [c] :=
      ⟨_, _, (List.dropLast_append_getLast hsegne).symm⟩
    have hc : c ≠ '/' := by
      intro h
      apply hnosep
      rw [hlc, h]
      simp
    have hdata : Join ((Split key).take i) = String.mk ((pre ++ l) ++ [c]) := by
      simp only [Join, List.map_take, map_data_Split, hpre, hlast, hlc, List.append_assoc]
    rw [hdata]
    exact normalize_mk_append _ c hc

/-! ## Claims on the bucket indexer and the storage adapter -/

/-- C1, counterexample: the key "." consists of one segment, its only bucket is
the root sentinel ".", and the sentinel is the full key: the list `buckets "."`
contains the key itself. -/
theorem buckets_dot_contains_key :
    Split "." = ["."] ∧ buckets "." = ["."] ∧ "." ∈ buckets "." := by
  decide

/-- C1, amended. For every key `K`, with `segments` the key split on "/" (so that
the segments joined with "/" are `K`) and `n` their number, `buckets K` has exactly
`n` elements, element 0 is the root sentinel ".", and element `i` for `1 ≤ i < n`
is `segments[0..i)` joined with "/", which is never the full key; the full key is
an element of the list only for the key ".", where it is the sentinel. The four
rows of the table of `TestCassandraBackendBuckets` hold and the test passes. -/
theorem buckets_root_first (K : String) :
    Join (Split K) = K ∧
    (buckets K).length = (Split K).length ∧
    (buckets K)[0]? = some "." ∧
    (∀ i, 1 ≤ i → i < (Split K).length →
      (buckets K)[i]? = some (Join ((Split K).take i)) ∧ Join ((Split K).take i) ≠ K) ∧
    (K ∈ buckets K ↔ K = ".") ∧
    buckets "" = ["."] ∧
    buckets "a" = ["."] ∧
    buckets "a/b" = [".", "a"] ∧
    buckets "a/b/c/d/e" = [".", "a", "a/b", "a/b/c", "a/b/c/d"] ∧
    TestCassandraBackendBuckets = true := by
  have hpos : 0 < (Split K).length := by
    rw [length_Split]
    exact List.length_pos.mpr (splitOn_ne_nil _ _)
  refine ⟨Join_Split K, length_buckets K, ?_, ?_, ?_, by decide, by decide, by decide,
    by decide, by decide⟩
  · rw [buckets_getElem? K 0 hpos]
    rfl
  · intro i h1 hi
    refine ⟨?_, Join_take_ne K i h1 hi⟩
    rw [buckets_getElem? K i hi, if_neg (by omega)]
  · constructor
    · intro hmem
      simp only [buckets, List.mem_map, List.mem_range] at hmem
      obtain ⟨i, hi, h⟩ := hmem
      by_cases h0 : i = 0
      · rw [if_pos h0] at h
        exact h.symm
      · rw [if_neg h0] at h
        exact absurd h (Join_take_ne K i (Nat.pos_of_ne_zero h0) hi)
    · intro h
      rw [h]
      decide

/-- Witness of the amended C1 at the key "a/b/c": three segments, buckets ".", "a",
"a/b", none of them the key. -/
theorem buckets_root_first_witness :
    (buckets "a/b/c").length = 3 ∧ (buckets "a/b/c")[0]? = some "." ∧
    (buckets "a/b/c")[2]? = some "a/b" ∧ Join ((Split "a/b/c").take 2) ≠ "a/b/c" ∧
    "a/b/c" ∉ buckets "a/b/c" :=
  ⟨(buckets_root_first "a/b/c").2.1.trans (by decide),
   (buckets_root_first "a/b/c").2.2.1,
   (((buckets_root_first "a/b/c").2.2.2.1 2 (by decide) (by decide)).1).trans (by decide),
   ((buckets_root_first "a/b/c").2.2.2.1 2 (by decide) (by decide)).2,
   fun h => absurd ((buckets_root_first "a/b/c").2.2.2.2.1.mp h) (by decide)⟩

/-- C4, counterexample: a `Put("k", v)` on the empty store returns without error,
yet a following `Get("k")` whose query cannot complete, or is cancelled, returns
that error and not the value. -/
theorem get_after_put_can_fail :
    (CassandraBackend.empty.Put none none "k" [7]).2 = none ∧
    (CassandraBackend.empty.Put none none "k" [7]).1.Get (some .transport) "k" =
      .error .transport ∧
    (CassandraBackend.empty.Put none none "k" [7]).1.Get (some .aborted) "k" =
      .error .aborted ∧
    ¬ ∀ (b : CassandraBackend) (qm qe q : Outcome) (K : String) (V : Bytes),
      (b.Put qm qe K V).2 = none → (b.Put qm qe K V).1.Get q K = .ok (some V) := by
  refine ⟨rfl, rfl, rfl, fun h => ?_⟩
  have hget := h CassandraBackend.empty none none (some .transport) "k" [7] rfl
  simp [CassandraBackend.Get] at hget

/-- C4, amended. Storage adapter round trip: for every state of the store, key `K`
and value `V`, after a `Put(K, V)` that returns without error a `Get(K)` whose
query completes returns `V` as present, also when `K` held another value before;
a `Get(K)` whose query does not complete returns the error of the query. -/
theorem put_get_round_trip (b : CassandraBackend) (qm qe : Outcome) (K : String) (V : Bytes)
    (hput : (b.Put qm qe K V).2 = none) :
    (b.Put qm qe K V).1.Get none K = .ok (some V) ∧
    ∀ err, (b.Put qm qe K V).1.Get (some err) K = .error err := by
  refine ⟨?_, fun err => rfl⟩
  cases qm with
  | some e => simp [CassandraBackend.Put] at hput
  | none =>
    cases qe with
    | some e => simp [CassandraBackend.Put] at hput
    | none => simp [CassandraBackend.Put, CassandraBackend.Get, List.lookup_cons]

/-- Witness of the amended C4: "k" holds `[1, 2]` and is overwritten with `[7]`. -/
theorem put_get_round_trip_witness :
    sampleBackend.Get none "k" = .ok (some [1, 2]) ∧
    (sampleBackend.Put none none "k" [7]).1.Get none "k" = .ok (some [7]) :=
  ⟨rfl, (put_get_round_trip sampleBackend none none "k" [7] rfl).1⟩

/-- C5, counterexample: after `Put("k", v)` and `Delete("k")` that both return
without error, a `Get("k")` that is cancelled returns the error "operation
aborted", not an absent result; and when the query of `Delete` cannot complete,
the following `Get("k")` still returns the value as present. -/
theorem get_after_delete_can_fail :
    (CassandraBackend.empty.Put none none "k" [7]).2 = none ∧
    ((CassandraBackend.empty.Put none none "k" [7]).1.Delete none "k").2 = none ∧
    ((CassandraBackend.empty.Put none none "k" [7]).1.Delete none "k").1.Get
      (some .aborted) "k" = .error .aborted ∧
    ((CassandraBackend.empty.Put none none "k" [7]).1.Delete (some .transport) "k").1.Get
      none "k" = .ok (some [7]) ∧
    ¬ ∀ (b : CassandraBackend) (qm qe qd q : Outcome) (K : String) (V : Bytes),
      ((b.Put qm qe K V).1.Delete qd K).1.Get q K = .ok none := by
  refine ⟨rfl, rfl, rfl, rfl, fun h => ?_⟩
  have hget := h CassandraBackend.empty none none none (some .aborted) "k" [7]
  simp [CassandraBackend.Get] at hget

/-- C5, amended. Storage adapter deletion: for every state of the store, key `K`
and value `V`, after a `Put(K, V)` and a `Delete(K)` that both return without
error, a `Get(K)` whose query completes returns absent, as a normal result and not
as an error, where before the delete it returned `V`; a `Get(K)` whose query does
not complete returns the error of the query. A `Delete` whose query completes
returns without error. -/
theorem put_delete_get_absent (b : CassandraBackend) (qm qe qd : Outcome) (K : String)
    (V : Bytes) (hput : (b.Put qm qe K V).2 = none)
    (hdel : ((b.Put qm qe K V).1.Delete qd K).2 = none) :
    (b.Put qm qe K V).1.Get none K = .ok (some V) ∧
    ((b.Put qm qe K V).1.Delete qd K).1.Get none K = .ok none ∧
    (∀ err, ((b.Put qm qe K V).1.Delete qd K).1.Get (some err) K = .error err) ∧
    ((b.Put qm qe K V).1.Delete none K).2 = none := by
  refine ⟨?_, ?_, fun err => rfl, rfl⟩
  · cases qm with
    | some e => simp [CassandraBackend.Put] at hput
    | none =>
      cases qe with
      | some e => simp [CassandraBackend.Put] at hput
      | none => simp [CassandraBackend.Put, CassandraBackend.Get, List.lookup_cons]
  · cases qd with
    | some e => simp [CassandraBackend.Delete] at hdel
    | none =>
      simp only [CassandraBackend.Delete, CassandraBackend.Get]
      rw [lookup_filter_ne]

/-- Witness of the amended C5 on the key "a/b" in the empty store. -/
theorem put_delete_get_absent_witness :
    (CassandraBackend.empty.Put none none "a/b" [7]).1.Get none "a/b" = .ok (some [7]) ∧
    ((CassandraBackend.empty.Put none none "a/b" [7]).1.Delete none "a/b").1.Get none "a/b" =
      .ok none :=
  ⟨(put_delete_get_absent CassandraBackend.empty none none none "a/b" [7] rfl rfl).1,
   (put_delete_get_absent CassandraBackend.empty none none none "a/b" [7] rfl rfl).2.1⟩

/-- C6, counterexample. (1) After the two puts a `List("a")` whose query cannot
complete returns the error, not the names. (2) After `Put("a//b", v)` the key is
stored and "a/" is its bucket at depth 2, below which its next segment is "b";
but a `List("a/")` whose query completes strips the trailing marker, reads the
bucket "a" and returns only "/". (3) After a `Put("a/b", v)` that fails between
its two writes, `List("a")` returns "b" although no key is stored. -/
theorem list_misses_child_of_marker_bucket :
    (CassandraBackend.empty.run [.put none none "a/b" [1], .put none none "a/c" [2]]).List
      (some .transport) "a" = .error .transport ∧
    ((CassandraBackend.empty.run [.put none none "a//b" [1]]).Get none "a//b" =
        .ok (some [1]) ∧
      (buckets "a//b")[2]? = some "a/" ∧ (Split "a//b")[2]? = some "b" ∧
      (Split "a//b").length = 3 ∧
      (CassandraBackend.empty.run [.put none none "a//b" [1]]).List none "a/" = .ok ["/"] ∧
      "b" ∉ ["/"]) ∧
    ((CassandraBackend.empty.run [.put none (some .transport) "a/b" [1]]).List none "a" =
        .ok ["b"] ∧
      (CassandraBackend.empty.run [.put none (some .transport) "a/b" [1]]).entries = []) ∧
    ¬ ∀ (ops : List Op) (K : String) (V : Bytes) (i : Nat) (B seg : String),
      (CassandraBackend.empty.run ops).Get none K = .ok (some V) →
      (buckets K)[i]? = some B → (Split K)[i]? = some seg →
      ∃ names, (CassandraBackend.empty.run ops).List none B = .ok names ∧
        (if i + 1 < (Split K).length then seg ++ "/" else seg) ∈ names := by
  refine ⟨rfl, ⟨rfl, by decide, by decide, by decide, rfl, by decide⟩, ⟨rfl, rfl⟩, fun h => ?_⟩
  obtain ⟨names, hlist, hmem⟩ := h [.put none none "a//b" [1]] "a//b" [1] 2 "a/" "b" rfl
    (by decide) (by decide)
  have hnames : ["/"] = names := Except.ok.inj hlist
  rw [← hnames] at hmem
  exact absurd hmem (by decide)

/-- C6, amended. (1) From the empty store, after `Put("a/b", v₁)` and
`Put("a/c", v₂)` that return without error, a `List("a")` whose query completes
returns exactly the names "b" and "c" without duplicates, and a `List("")` exactly
"a/". (2) In every state reached from the empty store by puts and deletes, failed
ones included, for every stored key `K` and every bucket `B` of `K`, at depth `i`,
that is its own normal form, a `List(B)` whose query completes contains segment
`i` of `K`, followed by "/" exactly when further segments follow. (3) When no
`Put` failed between its two writes, a `List` whose query completes returns,
without duplicates, exactly these child names of the stored keys below the
normalised prefix. (4) Every bucket of a key none of whose non-final segments is
empty is its own normal form. (5) A `List` whose query does not complete returns
the error of the query. -/
theorem list_immediate_children :
    (∀ v₁ v₂,
      (∃ names, (CassandraBackend.empty.run
          [.put none none "a/b" v₁, .put none none "a/c" v₂]).List none "a" = .ok names ∧
        names.Nodup ∧ ∀ x, x ∈ names ↔ x = "b" ∨ x = "c") ∧
      (∃ names, (CassandraBackend.empty.run
          [.put none none "a/b" v₁, .put none none "a/c" v₂]).List none "" = .ok names ∧
        names.Nodup ∧ ∀ x, x ∈ names ↔ x = "a/")) ∧
    (∀ (ops : List Op) (K : String) (V : Bytes) (i : Nat) (B seg : String),
      (CassandraBackend.empty.run ops).Get none K = .ok (some V) →
      (buckets K)[i]? = some B → (Split K)[i]? = some seg → normalize B = B →
      ∃ names, (CassandraBackend.empty.run ops).List none B = .ok names ∧
        (if i + 1 < (Split K).length then seg ++ "/" else seg) ∈ names) ∧
    (∀ (ops : List Op), (∀ op ∈ ops, op.atomic = true) →
      ∀ (pre : String) (names : List String),
      (CassandraBackend.empty.run ops).List none pre = .ok names →
      names.Nodup ∧
      ∀ name, name ∈ names ↔
        ∃ (K : String) (V : Bytes) (i : Nat) (seg : String),
          (CassandraBackend.empty.run ops).Get none K = .ok (some V) ∧
          (buckets K)[i]? = some (normalize pre) ∧ (Split K)[i]? = some seg ∧
          name = if i + 1 < (Split K).length then seg ++ "/" else seg) ∧
    (∀ K, (∀ j s, j + 1 < (Split K).length → (Split K)[j]? = some s → s ≠ "") →
      ∀ B ∈ buckets K, normalize B = B) ∧
    (∀ (b : CassandraBackend) (err : StoreError) (pre : String),
      b.List (some err) pre = .error err) := by
  refine ⟨?_, ?_, ?_, fun K hK B hB => normalize_bucket K hK B hB, fun _ _ _ => rfl⟩
  · intro v₁ v₂
    exact ⟨⟨["b", "c"], rfl, by decide, by simp⟩, ⟨["a/"], rfl, by decide, by simp⟩⟩
  · intro ops K V i B seg hstored hB hseg hnorm
    have hidx := Indexed_run ops Indexed_empty
    have hK : (K, V) ∈ (CassandraBackend.empty.run ops).entries := by
      simp only [CassandraBackend.Get, Except.ok.injEq] at hstored
      exact mem_of_lookup hstored
    refine ⟨_, rfl, ?_⟩
    rw [hnorm]
    exact hidx K V hK _ (mem_links K i B seg hB hseg)
  · intro ops hops pre names hlist
    obtain ⟨hghost, hnodup⟩ := Exact_run ops hops Exact_empty
    have hidx := Indexed_run ops Indexed_empty
    have hnames : (CassandraBackend.empty.run ops).members (normalize pre) = names :=
      Except.ok.inj hlist
    subst hnames
    refine ⟨hnodup _, fun name => ⟨fun hmem => ?_, ?_⟩⟩
    · obtain ⟨K, V, hK, hl⟩ := hghost _ name hmem
      obtain ⟨i, seg, hb, hs, hname⟩ := links_depth K _ name hl
      obtain ⟨V', hV⟩ := lookup_of_mem hK
      exact ⟨K, V', i, seg, by simp [CassandraBackend.Get, hV], hb, hs, hname⟩
    · rintro ⟨K, V, i, seg, hstored, hb, hs, rfl⟩
      have hK : (K, V) ∈ (CassandraBackend.empty.run ops).entries := by
        simp only [CassandraBackend.Get, Except.ok.injEq] at hstored
        exact mem_of_lookup hstored
      exact hidx K V hK _ (mem_links K i _ seg hb hs)

/-- Witness of the amended C6: the key "a/b/c" after a put, a failed put and an
unrelated put and delete, listed at its bucket "a". -/
theorem list_immediate_children_witness :
    (∃ names, (CassandraBackend.empty.run
        [.put none none "a/b/c" [1], .put (some .aborted) none "a/x" [3],
         .put none none "a/d" [2], .delete none "a/d"]).List none "a" = .ok names ∧
      "b/" ∈ names) ∧
    ∀ names, (CassandraBackend.empty.run
        [.put none none "a/b/c" [1], .put none none "a/d" [2], .delete none "a/d"]).List
        none "a/" = .ok names → names.Nodup :=
  ⟨list_immediate_children.2.1
      [.put none none "a/b/c" [1], .put (some .aborted) none "a/x" [3],
       .put none none "a/d" [2], .delete none "a/d"] "a/b/c" [1] 1 "a" "b" rfl
      (by decide) (by decide) (by decide),
   fun names h => (list_immediate_children.2.2.1
      [.put none none "a/b/c" [1], .put none none "a/d" [2], .delete none "a/d"]
      (by decide) "a/" names h).1⟩

end Cassandra
